import Mathlib

/-
Verification of the c2rust bit-field packing engine against its specification.

The repository ships the engine's test suite (c2rust-bitfields/tests/test_structs.rs),
which fixes the observable behavior of the generated accessors on the reference
aggregate CompactDate.  The engine itself (the derive crate that validates field
declarations, resolves the bit layout and synthesizes get/set accessors) is not
part of the sources at hand, so its data model and operations are modelled here
from the specification (sections 3, 4.1, 4.2 and 4.3) and checked against the
byte-level expectations the tests pin down.
-/

namespace C2RustBitfields

/-- Modelled from the spec: the target endianness (spec section 3); the engine
source that consumes it is absent from the sources, only its tests are present. -/
inductive Endianness where
  | little
  | big
deriving DecidableEq

/-- Modelled from the spec: one bit-field declaration (spec section 3, FieldSpec):
a name, the bit width of the declared unsigned integer type, and the inclusive
bit range inside the storage group, as declared by the caller. -/
structure FieldSpec where
  name : String
  declaredBits : Nat
  bitStart : Nat
  bitEnd : Nat
deriving DecidableEq

/-- Width in bits of a field, derived from its inclusive bit range. -/
def FieldSpec.width (f : FieldSpec) : Nat :=
  f.bitEnd + 1 - f.bitStart

/-- Modelled from the spec: how one group-local logical bit index maps to a
physical (byte index, bit index in byte) pair (spec section 4.2).  On a
little-endian target bit b lands in byte b / 8 at bit b % 8, counting from the
least-significant bit; on a big-endian target the enumeration inside each byte
starts from the most-significant bit instead. -/
def physBit (e : Endianness) (b : Nat) : Nat × Nat :=
  match e with
  | .little => (b / 8, b % 8)
  | .big => (b / 8, 7 - b % 8)

/-- Modelled from the spec: the LayoutPlan entry of one field (spec section 3):
the ordered list of physical (byte index, bit index in byte) pairs holding the
field's bits, least-significant field bit first. -/
def planEntry (e : Endianness) (f : FieldSpec) : List (Nat × Nat) :=
  (List.range f.width).map (fun i => physBit e (f.bitStart + i))

/-- Value (0 or 1) of one physical bit of the storage bytes. -/
def bitVal (s : List Nat) (p : Nat × Nat) : Nat :=
  if (s.getD p.1 0).testBit p.2 then 1 else 0

/-- Modelled from the spec: reassemble the physical bits named by a plan entry,
in logical order, into an unsigned integer (spec section 4.3, get). -/
def readBits (ps : List (Nat × Nat)) (s : List Nat) : Nat :=
  match ps with
  | [] => 0
  | p :: rest => bitVal s p + 2 * readBits rest s

/-- Modelled from the spec: write one bit of a byte by clearing it with an
inverted single-bit mask and then OR-ing the new bit in (spec section 4.3, set). -/
def setBitByte (b : Nat) (bit : Nat) (v : Bool) : Nat :=
  if v then (b &&& (255 ^^^ 2 ^ bit)) ||| 2 ^ bit else b &&& (255 ^^^ 2 ^ bit)

/-- Write one physical bit of the storage bytes. -/
def writeBit (s : List Nat) (p : Nat × Nat) (v : Bool) : List Nat :=
  s.set p.1 (setBitByte (s.getD p.1 0) p.2 v)

/-- Modelled from the spec: write the low bits of a value to the physical bit
positions of a plan entry, least-significant bit first (spec section 4.3, set). -/
def writeBits (ps : List (Nat × Nat)) (v : Nat) (s : List Nat) : List Nat :=
  match ps with
  | [] => s
  | p :: rest => writeBits rest (v / 2) (writeBit s p (v % 2 == 1))

/-- Modelled from the spec: the effective value a set call stores (spec section
4.3): a value that fits in the field's bit width is written verbatim; a value
that does not fit degrades to the all-zero field value. -/
def effectiveValue (w : Nat) (v : Nat) : Nat :=
  if v < 2 ^ w then v else 0

/-- Modelled from the spec: the generated getter (spec section 4.3, get). -/
def getField (e : Endianness) (f : FieldSpec) (s : List Nat) : Nat :=
  readBits (planEntry e f) s

/-- Modelled from the spec: the generated setter (spec section 4.3, set). -/
def setField (e : Endianness) (f : FieldSpec) (s : List Nat) (v : Nat) : List Nat :=
  writeBits (planEntry e f) (effectiveValue f.width v) s

/-- Modelled from the spec: the distinct validation failure kinds
(spec sections 4.1 and 7). -/
inductive FailureKind where
  | overlappingBitRange (a b : String)
  | rangeExceedsCapacity (f : String)
  | invalidWidth (f : String)
deriving DecidableEq

/-- Two declared inclusive bit ranges intersect. -/
def overlaps (f g : FieldSpec) : Bool :=
  max f.bitStart g.bitStart ≤ min f.bitEnd g.bitEnd

/-- First overlapping pair of declared ranges in a list of field specs, if any. -/
def findOverlap (specs : List FieldSpec) : Option (String × String) :=
  match specs with
  | [] => none
  | f :: rest =>
    match rest.find? (fun g => overlaps f g) with
    | some g => some (f.name, g.name)
    | none => findOverlap rest

/-- The declared range stays inside the storage group's bit capacity. -/
def capacityOK (byteLen : Nat) (f : FieldSpec) : Bool :=
  f.bitEnd < byteLen * 8

/-- The declared width is nonzero, at most 64, and fits the declared type. -/
def widthOK (f : FieldSpec) : Bool :=
  0 < f.width && f.width ≤ 64 && f.width ≤ f.declaredBits

/-- Modelled from the spec: the Validator (spec section 4.1) for one storage
group of byteLen bytes: reports the first failure kind, or none when valid. -/
def validate (byteLen : Nat) (specs : List FieldSpec) : Option FailureKind :=
  match findOverlap specs with
  | some (a, b) => some (.overlappingBitRange a b)
  | none =>
    match specs.find? (fun f => !capacityOK byteLen f) with
    | some f => some (.rangeExceedsCapacity f.name)
    | none =>
      match specs.find? (fun f => !widthOK f) with
      | some f => some (.invalidWidth f.name)
      | none => none

/-- Modelled from the spec: the LayoutResolver (spec section 4.2), which builds
the immutable LayoutPlan for a storage group only after validation passes. -/
def buildPlan (byteLen : Nat) (e : Endianness) (specs : List FieldSpec) :
    Except FailureKind (List (String × List (Nat × Nat))) :=
  match validate byteLen specs with
  | some k => .error k
  | none => .ok (specs.map (fun f => (f.name, planEntry e f)))

/-- Modelled from the spec: the native C reference behavior for assignment to
an unsigned colon-width bit-field member occupying the same physical bits
(spec section 6, the out-of-scope test oracle).  A C compiler converts the
assigned value to the w-bit unsigned field type, which reduces it modulo 2 ^ w. -/
def cSetField (e : Endianness) (f : FieldSpec) (s : List Nat) (v : Nat) : List Nat :=
  writeBits (planEntry e f) (v % 2 ^ f.width) s

/-- Field d of the reference aggregate: bits 0..=4 of the d_m group, declared
type libc's c_ulong, 64 bits (test_structs.rs, CompactDate). -/
def dSpec : FieldSpec :=
  { name := "d", declaredBits := 64, bitStart := 0, bitEnd := 4 }

/-- Field m of the reference aggregate: bits 8..=11 of the d_m group, declared
type libc's c_ushort, 16 bits (test_structs.rs, CompactDate). -/
def mSpec : FieldSpec :=
  { name := "m", declaredBits := 16, bitStart := 8, bitEnd := 11 }

/-- The reference aggregate from test_structs.rs: a 2-byte storage group d_m
shared by the bit-fields d and m, followed by an unshared 16-bit field y. -/
structure CompactDate where
  d_m : List Nat
  y : Nat
deriving DecidableEq

/-- Generated setter for field d on the reference aggregate (little-endian
target, as in the test). -/
def CompactDate.set_d (c : CompactDate) (v : Nat) : CompactDate :=
  { c with d_m := setField .little dSpec c.d_m v }

/-- Generated setter for field m on the reference aggregate. -/
def CompactDate.set_m (c : CompactDate) (v : Nat) : CompactDate :=
  { c with d_m := setField .little mSpec c.d_m v }

/-- Assignment to the plain (non-bit-field) member y of the reference aggregate. -/
def CompactDate.set_y (c : CompactDate) (v : Nat) : CompactDate :=
  { c with y := v }

/-- Generated getter for field d on the reference aggregate. -/
def CompactDate.d (c : CompactDate) : Nat :=
  getField .little dSpec c.d_m

/-- Generated getter for field m on the reference aggregate. -/
def CompactDate.m (c : CompactDate) : Nat :=
  getField .little mSpec c.d_m

/-- Little-endian byte encoding of a 16-bit value, as the u16 field y is laid
out in memory on the little-endian test target. -/
def u16LE (y : Nat) : List Nat :=
  [y % 256, y / 256 % 256]

/-- Raw bytes of the reference aggregate: the two d_m storage bytes followed by
the two bytes of y. -/
def CompactDate.bytes (c : CompactDate) : List Nat :=
  c.d_m ++ u16LE c.y

/-- A byte below 256 has no bits at positions 8 and above. -/
theorem testBit_of_byte {b : Nat} (hb : b < 256) {k : Nat} (hk : 8 ≤ k) :
    b.testBit k = false := by
  apply Nat.testBit_lt_two_pow
  calc b < 256 := hb
    _ = 2 ^ 8 := by norm_num
    _ ≤ 2 ^ k := Nat.pow_le_pow_right (by norm_num) hk

/-- Writing one bit of a byte changes exactly that bit. -/
theorem testBit_setBitByte {b : Nat} (hb : b < 256) {bit : Nat} (hbit : bit < 8)
    (v : Bool) (k : Nat) :
    (setBitByte b bit v).testBit k = if k = bit then v else b.testBit k := by
  have hmask : (255 ^^^ 2 ^ bit : Nat).testBit k = (decide (k < 8) ^^ decide (bit = k)) := by
    rw [Nat.testBit_xor, show (255 : Nat) = 2 ^ 8 - 1 by norm_num,
      Nat.testBit_two_pow_sub_one, Nat.testBit_two_pow]
  unfold setBitByte
  rcases eq_or_ne k bit with rfl | hne
  · have hx : (255 ^^^ 2 ^ k : Nat).testBit k = false := by rw [hmask]; simp [hbit]
    cases v
    · simp [Nat.testBit_land, hx]
    · simp [Nat.testBit_lor, Nat.testBit_two_pow_self]
  · have h2 : (2 ^ bit : Nat).testBit k = false := Nat.testBit_two_pow_of_ne (Ne.symm hne)
    rcases Nat.lt_or_ge k 8 with hk | hk
    · have hx : (255 ^^^ 2 ^ bit : Nat).testBit k = true := by
        rw [hmask]; simp [hk, Ne.symm hne]
      cases v <;> simp [Nat.testBit_lor, Nat.testBit_land, hx, h2, hne]
    · have hbf : b.testBit k = false := testBit_of_byte hb hk
      have hx : (255 ^^^ 2 ^ bit : Nat).testBit k = false := by
        rw [hmask]; simp [Nat.not_lt.mpr hk, Ne.symm hne]
      cases v <;> simp [Nat.testBit_lor, Nat.testBit_land, hx, h2, hne, hbf]

/-- Writing one bit of a byte keeps it a byte. -/
theorem setBitByte_lt {b : Nat} (hb : b < 256) {bit : Nat} (hbit : bit < 8) (v : Bool) :
    setBitByte b bit v < 256 := by
  have h256 : (256 : Nat) = 2 ^ 8 := by norm_num
  have hmask : b &&& (255 ^^^ 2 ^ bit) < 256 := lt_of_le_of_lt Nat.and_le_left hb
  unfold setBitByte
  cases v
  · simpa using hmask
  · have h1 : (2 ^ bit : Nat) < 2 ^ 8 := Nat.pow_lt_pow_right (by norm_num) hbit
    rw [h256] at hmask
    simpa [← h256] using Nat.or_lt_two_pow hmask h1

/-- Reading a byte of a list-with-default after an in-place update. -/
theorem getD_set (s : List Nat) (i j a : Nat) :
    (s.set i a).getD j 0 = if i = j ∧ i < s.length then a else s.getD j 0 := by
  rw [List.getD_eq_getElem?_getD, List.getD_eq_getElem?_getD, List.getElem?_set]
  by_cases hij : i = j
  · subst hij
    by_cases hlen : i < s.length
    · simp [hlen]
    · simp [hlen, List.getElem?_eq_none (Nat.le_of_not_lt hlen)]
  · simp [hij]

/-- Every byte read out of an all-bytes storage is a byte. -/
theorem getD_lt {s : List Nat} (hb : ∀ b ∈ s, b < 256) (j : Nat) : s.getD j 0 < 256 := by
  rcases Nat.lt_or_ge j s.length with h | h
  · rw [List.getD_eq_getElem s 0 h]
    exact hb _ (List.getElem_mem h)
  · rw [List.getD_eq_getElem?_getD, List.getElem?_eq_none h]
    norm_num

/-- Writing one physical bit preserves the storage length. -/
theorem length_writeBit (s : List Nat) (p : Nat × Nat) (v : Bool) :
    (writeBit s p v).length = s.length :=
  List.length_set s p.1 _

/-- Writing one physical bit keeps every storage cell a byte. -/
theorem writeBit_bytes_lt {s : List Nat} (hb : ∀ b ∈ s, b < 256) {p : Nat × Nat}
    (h8 : p.2 < 8) (v : Bool) : ∀ b ∈ writeBit s p v, b < 256 := by
  intro b hbmem
  rcases List.mem_or_eq_of_mem_set hbmem with h | rfl
  · exact hb b h
  · exact setBitByte_lt (getD_lt hb p.1) h8 v

/-- Writing one physical bit leaves every other physical bit unchanged. -/
theorem testBit_writeBit_frame {s : List Nat} (hb : ∀ b ∈ s, b < 256) {p : Nat × Nat}
    (h8 : p.2 < 8) (v : Bool) {q : Nat × Nat} (hq : q ≠ p) :
    ((writeBit s p v).getD q.1 0).testBit q.2 = (s.getD q.1 0).testBit q.2 := by
  unfold writeBit
  rw [getD_set]
  split
  · rename_i hcase
    obtain ⟨h1, _⟩ := hcase
    rw [testBit_setBitByte (getD_lt hb p.1) h8]
    rw [h1]
    have hne : q.2 ≠ p.2 := by
      intro h2
      exact hq (Prod.ext (h1.symm) h2)
    simp [hne]
  · rfl

/-- Writing one physical bit makes that bit hold the written value. -/
theorem bitVal_writeBit_self {s : List Nat} (hb : ∀ b ∈ s, b < 256) {p : Nat × Nat}
    (h8 : p.2 < 8) (hlen : p.1 < s.length) (v : Bool) :
    bitVal (writeBit s p v) p = if v then 1 else 0 := by
  unfold bitVal writeBit
  rw [getD_set, if_pos (⟨rfl, hlen⟩ : p.1 = p.1 ∧ p.1 < s.length)]
  rw [testBit_setBitByte (getD_lt hb p.1) h8]
  simp

/-- Writing a run of physical bits preserves the storage length. -/
theorem length_writeBits (ps : List (Nat × Nat)) (v : Nat) (s : List Nat) :
    (writeBits ps v s).length = s.length := by
  induction ps generalizing v s with
  | nil => rfl
  | cons p rest ih => rw [writeBits, ih, length_writeBit]

/-- Writing a run of physical bits keeps every storage cell a byte. -/
theorem writeBits_bytes_lt {ps : List (Nat × Nat)} (h8 : ∀ p ∈ ps, p.2 < 8)
    {s : List Nat} (hb : ∀ b ∈ s, b < 256) (v : Nat) :
    ∀ b ∈ writeBits ps v s, b < 256 := by
  induction ps generalizing v s with
  | nil => exact hb
  | cons p rest ih =>
    rw [writeBits]
    exact ih (fun q hq => h8 q (List.mem_cons_of_mem _ hq))
      (writeBit_bytes_lt hb (h8 p (List.mem_cons_self _ _)) _) _

/-- Writing a run of physical bits leaves every bit outside the run unchanged. -/
theorem testBit_writeBits_frame {ps : List (Nat × Nat)} (h8 : ∀ p ∈ ps, p.2 < 8)
    {s : List Nat} (hb : ∀ b ∈ s, b < 256) (v : Nat) {q : Nat × Nat} (hq : q ∉ ps) :
    ((writeBits ps v s).getD q.1 0).testBit q.2 = (s.getD q.1 0).testBit q.2 := by
  induction ps generalizing v s with
  | nil => rfl
  | cons p rest ih =>
    rw [writeBits]
    rw [ih (fun r hr => h8 r (List.mem_cons_of_mem _ hr))
      (writeBit_bytes_lt hb (h8 p (List.mem_cons_self _ _)) _) _
      (fun hmem => hq (List.mem_cons_of_mem _ hmem))]
    exact testBit_writeBit_frame hb (h8 p (List.mem_cons_self _ _)) _
      (fun hqp => hq (hqp ▸ List.mem_cons_self _ _))

/-- Reading a run of bit positions only looks at those positions. -/
theorem readBits_congr {ps : List (Nat × Nat)} {s' s : List Nat}
    (h : ∀ p ∈ ps, bitVal s' p = bitVal s p) : readBits ps s' = readBits ps s := by
  induction ps with
  | nil => rfl
  | cons p rest ih =>
    rw [readBits, readBits, h p (List.mem_cons_self _ _),
      ih (fun q hq => h q (List.mem_cons_of_mem _ hq))]

/-- Reassembling a run of bits yields a value below 2 to the run length. -/
theorem readBits_lt_two_pow (ps : List (Nat × Nat)) (s : List Nat) :
    readBits ps s < 2 ^ ps.length := by
  induction ps with
  | nil => simp [readBits]
  | cons p rest ih =>
    rw [readBits, List.length_cons, pow_succ]
    have hv : bitVal s p ≤ 1 := by unfold bitVal; split <;> omega
    omega

/-- Reading back a run of pairwise distinct, in-bounds physical bits after
writing a value to it recovers the low bits of that value. -/
theorem readBits_writeBits {ps : List (Nat × Nat)} (hnd : ps.Nodup)
    (h8 : ∀ p ∈ ps, p.2 < 8) {s : List Nat} (hlen : ∀ p ∈ ps, p.1 < s.length)
    (hb : ∀ b ∈ s, b < 256) (v : Nat) :
    readBits ps (writeBits ps v s) = v % 2 ^ ps.length := by
  induction ps generalizing v s with
  | nil => simp [readBits, writeBits, Nat.mod_one]
  | cons p rest ih =>
    obtain ⟨hp, hnd'⟩ := List.nodup_cons.mp hnd
    have h8p : p.2 < 8 := h8 p (List.mem_cons_self _ _)
    have h8' : ∀ q ∈ rest, q.2 < 8 := fun q hq => h8 q (List.mem_cons_of_mem _ hq)
    have hb1 : ∀ b ∈ writeBit s p (v % 2 == 1), b < 256 := writeBit_bytes_lt hb h8p _
    have hlen1 : ∀ q ∈ rest, q.1 < (writeBit s p (v % 2 == 1)).length := by
      intro q hq
      rw [length_writeBit]
      exact hlen q (List.mem_cons_of_mem _ hq)
    rw [writeBits, readBits, ih hnd' h8' hlen1 hb1 (v / 2)]
    have hframe : bitVal (writeBits rest (v / 2) (writeBit s p (v % 2 == 1))) p =
        bitVal (writeBit s p (v % 2 == 1)) p := by
      unfold bitVal
      rw [testBit_writeBits_frame h8' hb1 _ hp]
    rw [hframe, bitVal_writeBit_self hb h8p (hlen p (List.mem_cons_self _ _))]
    have hbit : (if (v % 2 == 1) = true then 1 else 0) = v % 2 := by
      rcases Nat.mod_two_eq_zero_or_one v with h | h <;> simp [h]
    rw [hbit]
    have hmm : v % (2 * 2 ^ rest.length) = v % 2 + 2 * (v / 2 % 2 ^ rest.length) :=
      Nat.mod_mul
    rw [List.length_cons, pow_succ, Nat.mul_comm (2 ^ rest.length) 2, hmm]

/-- The physical bit mapping is injective for each endianness. -/
theorem physBit_injective (e : Endianness) : Function.Injective (physBit e) := by
  intro a b hab
  cases e <;> simp [physBit, Prod.ext_iff] at hab <;> omega

/-- A plan entry holds one pair per logical bit of the field. -/
theorem planEntry_length (e : Endianness) (f : FieldSpec) :
    (planEntry e f).length = f.width := by
  simp [planEntry]

/-- The pairs of a plan entry are pairwise distinct. -/
theorem planEntry_nodup (e : Endianness) (f : FieldSpec) : (planEntry e f).Nodup := by
  apply List.Nodup.map _ (List.nodup_range _)
  intro a b hab
  have := physBit_injective e hab
  omega

/-- Every pair of a plan entry points at a bit position inside a byte. -/
theorem planEntry_bit_lt (e : Endianness) (f : FieldSpec) :
    ∀ p ∈ planEntry e f, p.2 < 8 := by
  intro p hp
  obtain ⟨i, _, rfl⟩ := List.mem_map.mp hp
  cases e <;> simp [physBit] <;> omega

/-- Every pair of a plan entry of a capacity-checked field points inside the
storage group's bytes. -/
theorem planEntry_byte_lt {byteLen : Nat} {f : FieldSpec}
    (hcap : capacityOK byteLen f = true) (e : Endianness) :
    ∀ p ∈ planEntry e f, p.1 < byteLen := by
  intro p hp
  obtain ⟨i, hi, rfl⟩ := List.mem_map.mp hp
  rw [List.mem_range] at hi
  unfold FieldSpec.width at hi
  unfold capacityOK at hcap
  rw [decide_eq_true_eq] at hcap
  cases e <;> simp [physBit] <;> omega

/-- Membership in a plan entry, phrased through the declared bit range. -/
theorem mem_planEntry {e : Endianness} {f : FieldSpec} {p : Nat × Nat} :
    p ∈ planEntry e f ↔ ∃ b, f.bitStart ≤ b ∧ b ≤ f.bitEnd ∧ p = physBit e b := by
  unfold planEntry
  rw [List.mem_map]
  constructor
  · rintro ⟨i, hi, rfl⟩
    rw [List.mem_range] at hi
    unfold FieldSpec.width at hi
    exact ⟨f.bitStart + i, by omega, by omega, rfl⟩
  · rintro ⟨b, h1, h2, rfl⟩
    refine ⟨b - f.bitStart, ?_, ?_⟩
    · rw [List.mem_range]
      unfold FieldSpec.width
      omega
    · rw [Nat.add_sub_cancel' h1]

/-- Plan entries of fields with disjoint declared ranges are disjoint. -/
theorem planEntry_disjoint (e : Endianness) {f g : FieldSpec}
    (hfg : overlaps f g = false) : ∀ p ∈ planEntry e f, p ∉ planEntry e g := by
  intro p hpf hpg
  obtain ⟨b1, hb11, hb12, rfl⟩ := mem_planEntry.mp hpf
  obtain ⟨b2, hb21, hb22, hEq⟩ := mem_planEntry.mp hpg
  have hbb : b1 = b2 := physBit_injective e hEq
  unfold overlaps at hfg
  rw [decide_eq_false_iff_not] at hfg
  omega

/-- Range intersection is symmetric. -/
theorem overlaps_comm (f g : FieldSpec) : overlaps f g = overlaps g f := by
  unfold overlaps
  rw [Nat.max_comm, Nat.min_comm]

/-- The overlap scan succeeds exactly on pairwise disjoint declared ranges. -/
theorem findOverlap_eq_none {specs : List FieldSpec} :
    findOverlap specs = none ↔ specs.Pairwise (fun f g => overlaps f g = false) := by
  induction specs with
  | nil => simp [findOverlap]
  | cons f rest ih =>
    rcases h : rest.find? (fun g => overlaps f g) with _ | g
    · simp only [findOverlap, h]
      rw [ih, List.pairwise_cons]
      have hall : ∀ g ∈ rest, overlaps f g = false := by
        intro g hg
        have := List.find?_eq_none.mp h g hg
        simpa using this
      exact ⟨fun hp => ⟨hall, hp⟩, fun hp => hp.2⟩
    · simp only [findOverlap, h]
      have hg : overlaps f g = true := List.find?_some h
      have hmem : g ∈ rest := List.mem_of_find?_eq_some h
      constructor
      · intro h'
        exact absurd h' (by simp)
      · rw [List.pairwise_cons]
        rintro ⟨h1, _⟩
        have := h1 g hmem
        rw [hg] at this
        exact absurd this (by simp)

/-- A passing validation certifies all three checks for every field. -/
theorem validate_none {byteLen : Nat} {specs : List FieldSpec}
    (h : validate byteLen specs = none) :
    findOverlap specs = none ∧ (∀ f ∈ specs, capacityOK byteLen f = true) ∧
      ∀ f ∈ specs, widthOK f = true := by
  unfold validate at h
  rcases h1 : findOverlap specs with _ | ab
  · rw [h1] at h
    rcases h2 : specs.find? (fun f => !capacityOK byteLen f) with _ | f
    · rw [h2] at h
      rcases h3 : specs.find? (fun f => !widthOK f) with _ | f
      · refine ⟨rfl, ?_, ?_⟩
        · intro f hf
          have := List.find?_eq_none.mp h2 f hf
          simpa using this
        · intro f hf
          have := List.find?_eq_none.mp h3 f hf
          simpa using this
      · rw [h3] at h
        exact absurd h (by simp)
    · rw [h2] at h
      exact absurd h (by simp)
  · obtain ⟨a, b⟩ := ab
    rw [h1] at h
    exact absurd h (by simp)

/-- The effective stored value always fits the field width. -/
theorem effectiveValue_lt (w v : Nat) : effectiveValue w v < 2 ^ w := by
  unfold effectiveValue
  split
  · assumption
  · exact Nat.two_pow_pos w

/-- Core set/get law: on a validated storage group, reading a field back after
writing it yields exactly the effective stored value, whatever the prior
storage contents were. -/
theorem set_get_core (e : Endianness) {byteLen : Nat} {specs : List FieldSpec}
    {f : FieldSpec} {s : List Nat} (v : Nat) (hval : validate byteLen specs = none)
    (hf : f ∈ specs) (hlen : s.length = byteLen) (hb : ∀ b ∈ s, b < 256) :
    getField e f (setField e f s v) = effectiveValue f.width v := by
  obtain ⟨-, hcap, -⟩ := validate_none hval
  unfold getField setField
  rw [readBits_writeBits (planEntry_nodup e f) (planEntry_bit_lt e f)
    (fun p hp => by rw [hlen]; exact planEntry_byte_lt (hcap f hf) e p hp) hb]
  rw [planEntry_length]
  exact Nat.mod_eq_of_lt (effectiveValue_lt f.width v)

/-- C1: on the reference aggregate (2-byte group d_m with d at bits 0..=4 and m
at bits 8..=11, followed by a 16-bit y, little-endian target), starting from
zeroed storage, set_d 31, set_m 12 and y = 2014 make the raw bytes exactly
[0b00011111, 0b00001100, 0b11011110, 0b00000111]. -/
theorem layout_fidelity :
    ((((CompactDate.mk [0, 0] 0).set_d 31).set_m 12).set_y 2014).bytes =
      [0b00011111, 0b00001100, 0b11011110, 0b00000111] := by
  decide

/-- C2: for the 5-bit field d, setting 31 reads back 31, then setting 32 reads
back 0, then setting 255 reads back 0, exactly as the overflow test asserts. -/
theorem overflow_scenario :
    ((CompactDate.mk [0, 0] 2014).set_d 31).d = 31 ∧
      (((CompactDate.mk [0, 0] 2014).set_d 31).set_d 32).d = 0 ∧
      ((((CompactDate.mk [0, 0] 2014).set_d 31).set_d 32).set_d 255).d = 0 := by
  decide

/-- C3: for every field of a validated group and every value of its declared
type, a set stores the value verbatim when it fits the field's bit width, and
stores the all-zero field value when it does not, as the subsequent get shows. -/
theorem set_stores_low_bits_or_zero (e : Endianness) (byteLen : Nat)
    (specs : List FieldSpec) (f : FieldSpec) (s : List Nat) (v : Nat)
    (hval : validate byteLen specs = none) (hf : f ∈ specs)
    (hlen : s.length = byteLen) (hb : ∀ b ∈ s, b < 256)
    (_hv : v < 2 ^ f.declaredBits) :
    getField e f (setField e f s v) = if v < 2 ^ f.width then v else 0 := by
  rw [set_get_core e v hval hf hlen hb]
  rfl

/-- Witness for C3 at the divergent input: writing 255 to the 5-bit field d of
zeroed storage and reading it back yields the all-zero value. -/
theorem set_stores_low_bits_or_zero_witness :
    getField .little dSpec (setField .little dSpec [0, 0] 255) =
      if 255 < 2 ^ dSpec.width then 255 else 0 :=
  set_stores_low_bits_or_zero .little 2 [dSpec, mSpec] dSpec [0, 0] 255 (by decide)
    (by decide) (by decide) (by decide) (by decide)

/-- C4: on a validated group, for every field of width w, every storage state
and every value below 2 to the w, set followed by get returns the value. -/
theorem roundtrip_in_range (e : Endianness) (byteLen : Nat) (specs : List FieldSpec)
    (f : FieldSpec) (s : List Nat) (v : Nat)
    (hval : validate byteLen specs = none) (hf : f ∈ specs)
    (hlen : s.length = byteLen) (hb : ∀ b ∈ s, b < 256) (hv : v < 2 ^ f.width) :
    getField e f (setField e f s v) = v := by
  rw [set_get_core e v hval hf hlen hb]
  unfold effectiveValue
  rw [if_pos hv]

/-- Witness for C4: the in-range round trip at d = 31 on non-zero storage. -/
theorem roundtrip_in_range_witness :
    getField .little dSpec (setField .little dSpec [7, 9] 31) = 31 :=
  roundtrip_in_range .little 2 [dSpec, mSpec] dSpec [7, 9] 31 (by decide) (by decide)
    (by decide) (by decide) (by decide)

/-- C5: on a validated group, a set on one field never changes the value read
from a distinct field, and every storage bit outside the written field's plan
entry stays bit-for-bit unchanged. -/
theorem set_noninterference (e : Endianness) (byteLen : Nat) (specs : List FieldSpec)
    (i j : Nat) (s : List Nat) (v : Nat)
    (hval : validate byteLen specs = none)
    (hi : i < specs.length) (hj : j < specs.length) (hij : i ≠ j)
    (hb : ∀ b ∈ s, b < 256) :
    getField e specs[j] (setField e specs[i] s v) = getField e specs[j] s ∧
      ∀ a k, (a, k) ∉ planEntry e specs[i] →
        ((setField e specs[i] s v).getD a 0).testBit k = ((s.getD a 0)).testBit k := by
  obtain ⟨hov, -, -⟩ := validate_none hval
  have hpw := findOverlap_eq_none.mp hov
  rw [List.pairwise_iff_getElem] at hpw
  have hdis : overlaps specs[i] specs[j] = false := by
    rcases Nat.lt_or_ge i j with h | h
    · exact hpw i j hi hj h
    · have hlt : j < i := by omega
      rw [overlaps_comm]
      exact hpw j i hj hi hlt
  have hdis2 : overlaps specs[j] specs[i] = false := by
    rw [overlaps_comm]
    exact hdis
  constructor
  · unfold getField setField
    apply readBits_congr
    intro p hp
    unfold bitVal
    rw [testBit_writeBits_frame (planEntry_bit_lt e _) hb _
      (planEntry_disjoint e hdis2 p hp)]
  · intro a k hak
    unfold setField
    exact testBit_writeBits_frame (planEntry_bit_lt e _) hb _ hak

/-- Witness for C5: setting d to 31 leaves field m (stored in the second byte)
readable unchanged and touches no bit outside d's plan entry. -/
theorem set_noninterference_witness :
    (getField .little mSpec (setField .little dSpec [0, 7] 31) =
        getField .little mSpec [0, 7] ∧
      ∀ a k, (a, k) ∉ planEntry .little dSpec →
        ((setField .little dSpec [0, 7] 31).getD a 0).testBit k =
          (([0, 7] : List Nat).getD a 0).testBit k) :=
  set_noninterference .little 2 [dSpec, mSpec] 0 1 [0, 7] 31 (by decide) (by decide)
    (by decide) (by decide) (by decide)

/-- C6: get is total and pure on the functional model; for every endianness,
field and storage contents it returns the field's reassembled bits, so its
result is always below 2 to the field width. -/
theorem get_total_bounded (e : Endianness) (f : FieldSpec) (s : List Nat) :
    getField e f s < 2 ^ f.width := by
  have := readBits_lt_two_pow (planEntry e f) s
  rwa [planEntry_length] at this

/-- C7 counterexample: writing 255 to the 5-bit field d of zeroed storage
leaves different raw bytes than the equivalent native C bit-field assignment,
which reduces the value modulo 2 to the field width: the engine clears the
field to 0 while C stores 31. -/
theorem binary_compat_counterexample :
    setField .little dSpec [0, 0] 255 ≠ cSetField .little dSpec [0, 0] 255 := by
  decide

/-- C7 amended: after any sequence of set calls whose assigned values are in
range for their fields, the raw storage bytes are bit-identical to the bytes
the native C reference produces for the equivalent assignment sequence. -/
theorem binary_compat_in_range (e : Endianness) (ops : List (FieldSpec × Nat))
    (s : List Nat) (h : ∀ op ∈ ops, op.2 < 2 ^ op.1.width) :
    ops.foldl (fun t op => setField e op.1 t op.2) s =
      ops.foldl (fun t op => cSetField e op.1 t op.2) s := by
  revert h
  induction ops generalizing s with
  | nil =>
    intro h
    rfl
  | cons op rest ih =>
    intro h
    rw [List.foldl_cons, List.foldl_cons]
    have hop : op.2 < 2 ^ op.1.width := h op (List.mem_cons_self _ _)
    have hstep : setField e op.1 s op.2 = cSetField e op.1 s op.2 := by
      unfold setField cSetField effectiveValue
      rw [if_pos hop, Nat.mod_eq_of_lt hop]
    rw [hstep]
    exact ih _ (fun q hq => h q (List.mem_cons_of_mem _ hq))

/-- Witness for the amended C7: the in-range test sequence d = 31, m = 12
produces identical bytes under the engine and under the C reference model. -/
theorem binary_compat_in_range_witness :
    (∀ op ∈ [(dSpec, 31), (mSpec, 12)], op.2 < 2 ^ op.1.width) ∧
      [(dSpec, 31), (mSpec, 12)].foldl (fun t op => setField .little op.1 t op.2) [0, 0] =
        [(dSpec, 31), (mSpec, 12)].foldl (fun t op => cSetField .little op.1 t op.2) [0, 0] :=
  ⟨by decide, binary_compat_in_range .little [(dSpec, 31), (mSpec, 12)] [0, 0] (by decide)⟩

/-- C8: whenever two distinct fields of a storage group have intersecting
declared bit ranges, building the layout fails with OverlappingBitRange and no
layout plan is produced. -/
theorem validator_rejects_overlap (byteLen : Nat) (e : Endianness)
    (specs : List FieldSpec) (i j : Nat) (hi : i < specs.length) (hj : j < specs.length)
    (hij : i ≠ j) (hover : overlaps specs[i] specs[j] = true) :
    ∃ a b, buildPlan byteLen e specs = .error (.overlappingBitRange a b) := by
  have hnp : findOverlap specs ≠ none := by
    intro hfo
    have hp := findOverlap_eq_none.mp hfo
    rw [List.pairwise_iff_getElem] at hp
    rcases Nat.lt_or_ge i j with h | h
    · have := hp i j hi hj h
      rw [hover] at this
      exact absurd this (by simp)
    · have hlt : j < i := by omega
      have := hp j i hj hi hlt
      rw [overlaps_comm, hover] at this
      exact absurd this (by simp)
  rcases hfo : findOverlap specs with _ | ab
  · exact absurd hfo hnp
  · obtain ⟨a, b⟩ := ab
    exact ⟨a, b, by simp [buildPlan, validate, hfo]⟩

/-- Witness for C8: a field crossing bits 3..=6 overlaps d at bits 0..=4 and
layout construction reports the overlap. -/
theorem validator_rejects_overlap_witness :
    ∃ a b, buildPlan 2 .little
        [dSpec, { name := "x", declaredBits := 8, bitStart := 3, bitEnd := 6 }] =
      .error (.overlappingBitRange a b) :=
  validator_rejects_overlap 2 .little
    [dSpec, { name := "x", declaredBits := 8, bitStart := 3, bitEnd := 6 }] 0 1
    (by decide) (by decide) (by decide) (by decide)

/-- C9: a nonempty validated set of field specs over a storage group of more
than one byte resolves to different layout plans under little and big
endianness, differing in at least one field's physical bit positions. -/
theorem endianness_sensitivity (byteLen : Nat) (specs : List FieldSpec)
    (hval : validate byteLen specs = none) (hne : specs ≠ []) (_hmulti : 1 < byteLen) :
    buildPlan byteLen .little specs ≠ buildPlan byteLen .big specs ∧
      ∃ f ∈ specs, planEntry .little f ≠ planEntry .big f := by
  obtain ⟨-, -, hw⟩ := validate_none hval
  rcases specs with _ | ⟨f, rest⟩
  · exact absurd rfl hne
  have hwf : widthOK f = true := hw f (List.mem_cons_self _ _)
  have hwpos : 0 < f.width := by
    unfold widthOK at hwf
    simp only [Bool.and_eq_true, decide_eq_true_eq] at hwf
    exact hwf.1.1
  have hplan : planEntry .little f ≠ planEntry .big f := by
    intro hEq
    have hl : 0 < (planEntry Endianness.little f).length := by
      rw [planEntry_length]
      exact hwpos
    have hbg : 0 < (planEntry Endianness.big f).length := by
      rw [planEntry_length]
      exact hwpos
    have h0 := congrArg (fun l => l.getD 0 (0, 0)) hEq
    simp only [List.getD_eq_getElem?_getD, List.getElem?_eq_getElem hl,
      List.getElem?_eq_getElem hbg, Option.getD_some] at h0
    unfold planEntry at h0
    rw [List.getElem_map, List.getElem_map, List.getElem_range] at h0
    unfold physBit at h0
    rw [Prod.ext_iff] at h0
    simp only at h0
    omega
  refine ⟨?_, f, List.mem_cons_self _ _, hplan⟩
  intro hEq
  simp only [buildPlan, hval, List.map_cons] at hEq
  rw [Except.ok.injEq] at hEq
  simp only [List.cons.injEq, Prod.mk.injEq] at hEq
  exact hplan hEq.1.2

/-- Witness for C9: the reference group of d and m over two bytes resolves to
different plans under the two endianness settings. -/
theorem endianness_sensitivity_witness :
    buildPlan 2 .little [dSpec, mSpec] ≠ buildPlan 2 .big [dSpec, mSpec] ∧
      ∃ f ∈ [dSpec, mSpec], planEntry .little f ≠ planEntry .big f :=
  endianness_sensitivity 2 [dSpec, mSpec] (by decide) (by decide) (by decide)

/-- C10: the value read back right after a set depends only on the value given
to the set, never on the field's prior stored contents. -/
theorem last_write_wins (e : Endianness) (byteLen : Nat) (specs : List FieldSpec)
    (f : FieldSpec) (s₁ s₂ : List Nat) (v : Nat)
    (hval : validate byteLen specs = none) (hf : f ∈ specs)
    (hlen₁ : s₁.length = byteLen) (hlen₂ : s₂.length = byteLen)
    (hb₁ : ∀ b ∈ s₁, b < 256) (hb₂ : ∀ b ∈ s₂, b < 256) :
    getField e f (setField e f s₁ v) = getField e f (setField e f s₂ v) := by
  rw [set_get_core e v hval hf hlen₁ hb₁, set_get_core e v hval hf hlen₂ hb₂]

/-- Witness for C10: storing 255 into d clears it to 0 whether d previously
held 31 (storage byte 31) or 0 (zeroed storage). -/
theorem last_write_wins_witness :
    getField .little dSpec (setField .little dSpec [31, 0] 255) =
      getField .little dSpec (setField .little dSpec [0, 0] 255) :=
  last_write_wins .little 2 [dSpec, mSpec] dSpec [31, 0] [0, 0] 255 (by decide)
    (by decide) (by decide) (by decide) (by decide) (by decide)

end C2RustBitfields
